import Mathlib

/-!
Verification of the KWIC (Key-Word-In-Context) pipeline implemented in
`src/KWIC-SHOO.cpp`.

C++ `char` values are modelled as byte values (`Nat`), and `std::string` /
words as `List Nat` (`Str`).  A `std::vector<std::string>` is a `List Str`.
All definitions are translated directly from the source file; line numbers
in doc comments refer to `src/KWIC-SHOO.cpp`.
-/

/-- A C++ `std::string`, as the list of its `char` (byte) values. -/
abbrev Str : Type := List Nat

/-- C `tolower` in the C locale on byte values: maps `A`-`Z` (65-90) to
`a`-`z` (97-122) by adding 32, and is the identity elsewhere. -/
def c_tolower (c : Nat) : Nat := if 65 ≤ c ∧ c ≤ 90 then c + 32 else c

/-- C `islower` in the C locale: true exactly on `a`-`z` (97-122). -/
def c_islower (c : Nat) : Bool := decide (97 ≤ c ∧ c ≤ 122)

/-- C `isupper` in the C locale: true exactly on `A`-`Z` (65-90). -/
def c_isupper (c : Nat) : Bool := decide (65 ≤ c ∧ c ≤ 90)

/-- C `isspace` in the C locale: space (32) and the control characters 9-13. -/
def c_isspace (c : Nat) : Bool := decide (c = 32 ∨ (9 ≤ c ∧ c ≤ 13))

/-- Model of `caseSensitive` (lines 13-24): the sorting comparator.  It walks the
shared prefix of `a` and `b`; at the first position where the characters
differ it decides by folded value, or, when the folded values agree, by
`islower(ca) && isupper(cb)`; if the whole shared prefix is equal it
returns `a.size() < b.size()`. -/
def caseSensitive : Str → Str → Bool
  | [], [] => false
  | [], _ :: _ => true
  | _ :: _, [] => false
  | ca :: as, cb :: bs =>
    if c_tolower ca ≠ c_tolower cb then decide (c_tolower ca < c_tolower cb)
    else if ca ≠ cb then c_islower ca && c_isupper cb
    else caseSensitive as bs

/-- Model of `toLowerString` (lines 26-32): lowercases every character. -/
def toLowerString (s : Str) : Str := s.map c_tolower

/-- Model of `isNoiseWord` (lines 35-37): `find(noiseWords->begin(), noiseWords->end(),
toLowerString(word)) != noiseWords->end()`, i.e. membership of the lowercased
word in the stored noise-word vector. -/
def isNoiseWord (word : Str) (noiseWords : List Str) : Bool :=
  decide (toLowerString word ∈ noiseWords)

/-- Tokenization performed by `stringstream >> word` (lines 123-128 and
141-147): split a line on runs of C-locale whitespace, discarding empty
tokens.  `acc` holds the current token, reversed. -/
def splitWordsGo : Str → Str → List Str
  | [], acc => if acc = [] then [] else [acc.reverse]
  | c :: cs, acc =>
    if c_isspace c then
      if acc = [] then splitWordsGo cs [] else acc.reverse :: splitWordsGo cs []
    else splitWordsGo cs (c :: acc)

/-- Whitespace-splitting of one line into its words. -/
def splitWords (line : Str) : List Str := splitWordsGo line []

/-- Model of `std::rotate(vect.begin(), vect.begin() + 1, vect.end())` (line 168):
rotate left by one position. -/
def rotl : List α → List α
  | [] => []
  | x :: xs => xs ++ [x]

/-- Iterated rotation: `n` successive applications of `rotl`. -/
def rotln : Nat → List α → List α
  | 0, v => v
  | n + 1, v => rotln n (rotl v)

/-- The string built at lines 162-165: `temp += w + " "` for each word `w`
of the current (rotated) vector, starting from the empty string. -/
def joinWords (ws : List Str) : Str := ws.foldl (fun acc w => acc ++ (w ++ [32])) []

/-- The inner loop of `CircularShiftFilter::process` (lines 160-169) with
`k` iterations left and current vector `v`: if `vect[0]` is not a noise word,
emit the joined string, then rotate and continue.  The C++ loop mutates
`vect` in place; here the rotated vector is passed to the next iteration. -/
def circShiftGo (noise : List Str) : Nat → List Str → List Str
  | 0, _ => []
  | k + 1, v =>
    (if isNoiseWord (v.headD []) noise then [] else [joinWords v]) ++
      circShiftGo noise k (rotl v)

/-- Model of `CircularShiftFilter::process` restricted to a single tokenized line:
the loop runs `vect.size()` times. -/
def circularShiftLine (noise : List Str) (line : List Str) : List Str :=
  circShiftGo noise line.length line

/-- Model of `CircularShiftFilter::process` (lines 157-171): lines are processed in
document order and their emitted rotations appended to the shift store. -/
def circularShiftProcess (noise : List Str) (lines2d : List (List Str)) : List Str :=
  (lines2d.map (circularShiftLine noise)).flatten

/-- Insertion of `x` into `l` by a strict comparator `lt`: `x` is placed
before the first element it precedes. -/
def insertBy (lt : α → α → Bool) (x : α) : List α → List α
  | [] => [x]
  | y :: ys => if lt x y then x :: y :: ys else y :: insertBy lt x ys

/-- Insertion sort by a strict comparator `lt`. -/
def isortBy (lt : α → α → Bool) : List α → List α
  | [] => []
  | x :: xs => insertBy lt x (isortBy lt xs)

/-- The sort performed by `AlphabetizerFilter::process` (line 180):
`std::sort(..., caseSensitive)`.  `caseSensitive` is proved below to be a
strict total order, under which the sorted permutation of a sequence is
unique, so `std::sort` is modelled by insertion sort
(`alphabetize_eq_of_perm_of_sorted` below justifies the model: every sorted
permutation of the input equals `alphabetize` of the input). -/
def alphabetize (shifts : List Str) : List Str := isortBy caseSensitive shifts

/-- A sequence is sorted for `std::sort` with comparator `caseSensitive`
when no element compares before an element preceding it. -/
def SortedCS (l : List Str) : Prop := l.Pairwise (fun a b => caseSensitive b a = false)

/-- Model of `AlphabetizerFilter::process` (lines 178-181) with its observable
effect on both repositories.  `SortedShiftRepo::copy` (lines 104-106)
assigns the `shared_ptr`, so after `copy` the sorted-shift repository
aliases the very vector held by `ShiftRepo`, and the subsequent in-place
`std::sort` sorts that shared vector.  The model returns the pair
(contents of the `ShiftRepo` vector after, contents the
`SortedShiftRepo` pointer refers to after); both are the sorted sequence. -/
def alphabetizerProcess (shifts : List Str) : List Str × List Str :=
  (alphabetize shifts, alphabetize shifts)

/-- The error messages the program can print to `cerr`. -/
inductive ErrMsg where
  | usageTooFew
  | usageTooMany
  | noiseOpenFail
  | inputOpenFail
deriving DecidableEq

/-- Whether an error message is one of the two usage messages of `main`
(lines 213-224). -/
def ErrMsg.isUsage : ErrMsg → Bool
  | ErrMsg.usageTooFew => true
  | ErrMsg.usageTooMany => true
  | _ => false

/-- The environment of one run: whether each input file opens, and the
lines each file contains when it does. -/
structure RunEnv where
  noiseFileOk : Bool
  inputFileOk : Bool
  noiseFileLines : List Str
  inputFileLines : List Str
deriving DecidableEq

/-- The observable outcome of a run: the process exit status, the messages
written to the error stream, and the report lines written to standard
output. -/
structure RunOutcome where
  exitCode : Nat
  stderrMsgs : List ErrMsg
  stdoutLines : List Str
deriving DecidableEq

/-- Noise-word storage built by `InputFilter::process` (lines 122-129):
every whitespace-separated token of every line of the noise-word file,
stored lowercased, in order. -/
def inputFilterNoise (env : RunEnv) : List Str :=
  (env.noiseFileLines.map (fun l => (splitWords l).map toLowerString)).flatten

/-- Line storage built by `InputFilter::process` (lines 140-149): each
line of the input file tokenized into its words (empty lines become empty
word vectors and are stored too). -/
def inputFilterLines2d (env : RunEnv) : List (List Str) :=
  env.inputFileLines.map splitWords

/-- Model of `OutputFilter::process` (lines 187-191): `cout << "\n" << line << endl`
prints, for each sorted rotation, an empty line followed by the rotation.
(The final diagnostic timing line printed by `main` is wall-clock output
outside the semantic contract and is not modelled.) -/
def outputRender (sorted : List Str) : List Str :=
  (sorted.map (fun r => [([] : Str), r])).flatten

/-- The whole program (`main`, lines 210-244, and `Pipeline::process`):
argument-count checks first (with `argc = 3` meaning exactly two positional
arguments), then `InputFilter` (which exits with status 1 if a file fails
to open, noise-word file checked first), then the shift, sort and output
stages.  Successful runs exit with status 0. -/
def runModel (argc : Nat) (env : RunEnv) : RunOutcome :=
  if argc < 3 then ⟨1, [ErrMsg.usageTooFew], []⟩
  else if 3 < argc then ⟨1, [ErrMsg.usageTooMany], []⟩
  else if env.noiseFileOk = false then ⟨1, [ErrMsg.noiseOpenFail], []⟩
  else if env.inputFileOk = false then ⟨1, [ErrMsg.inputOpenFail], []⟩
  else
    let noise := inputFilterNoise env
    let shifts := circularShiftProcess noise (inputFilterLines2d env)
    ⟨0, [], outputRender (alphabetize shifts)⟩

/-- Numeric key of a character under the comparator: folded value first,
then case rank (uppercase after lowercase).  `caseSensitive` is proved to
be lexicographic comparison of character keys. -/
def keyChar (c : Nat) : Nat := 2 * c_tolower c + (if c_isupper c then 1 else 0)

/-- Strict lexicographic order on lists of naturals (shorter prefix first). -/
def lexLt : List Nat → List Nat → Bool
  | [], [] => false
  | [], _ :: _ => true
  | _ :: _, [] => false
  | a :: as, b :: bs => if a < b then true else if b < a then false else lexLt as bs

/-! ## Properties of the character keys -/

theorem keyChar_lt_of_tolower_lt {ca cb : Nat} (h : c_tolower ca < c_tolower cb) :
    keyChar ca < keyChar cb := by
  unfold keyChar
  split_ifs <;> omega

theorem keyChar_eq_of_eq {ca cb : Nat} (h : ca = cb) : keyChar ca = keyChar cb := by
  rw [h]

theorem keyChar_tolower_eq_ne {ca cb : Nat} (he : c_tolower ca = c_tolower cb)
    (hne : ca ≠ cb) :
    ((c_islower ca && c_isupper cb) = true ∧ keyChar ca < keyChar cb) ∨
      ((c_islower ca && c_isupper cb) = false ∧ keyChar cb < keyChar ca) := by
  unfold c_tolower at he
  unfold keyChar c_tolower c_islower c_isupper
  split_ifs at * <;> simp_all <;> omega

theorem keyChar_inj {ca cb : Nat} (h : keyChar ca = keyChar cb) : ca = cb := by
  unfold keyChar c_tolower c_isupper at h
  split_ifs at h <;> simp_all <;> omega

/-! ## The comparator is lexicographic comparison of character keys -/

theorem caseSensitive_eq_lexLt :
    ∀ a b : Str, caseSensitive a b = lexLt (a.map keyChar) (b.map keyChar) := by
  intro a
  induction a with
  | nil =>
    intro b
    cases b <;> simp [caseSensitive, lexLt]
  | cons ca as ih =>
    intro b
    cases b with
    | nil => simp [caseSensitive, lexLt]
    | cons cb bs =>
      by_cases hc : ca = cb
      · subst hc
        simp [caseSensitive, lexLt, ih]
      · by_cases ht : c_tolower ca = c_tolower cb
        · rcases keyChar_tolower_eq_ne ht hc with ⟨hb, hk⟩ | ⟨hb, hk⟩
          · simp [caseSensitive, lexLt, ht, hc, hb, hk]
          · have hk2 : ¬ keyChar ca < keyChar cb := by omega
            simp [caseSensitive, lexLt, ht, hc, hb, hk, hk2]
        · rcases Nat.lt_or_ge (c_tolower ca) (c_tolower cb) with hlt | hge
          · have hk := keyChar_lt_of_tolower_lt hlt
            simp [caseSensitive, lexLt, ht, hk, hlt]
          · have hlt2 : c_tolower cb < c_tolower ca := by omega
            have hk := keyChar_lt_of_tolower_lt hlt2
            have hk2 : ¬ keyChar ca < keyChar cb := by omega
            have hn : ¬ c_tolower ca < c_tolower cb := by omega
            simp [caseSensitive, lexLt, ht, hk, hk2, hn]

/-! ## `lexLt` is a strict total order -/

theorem lexLt_irrefl : ∀ l : List Nat, lexLt l l = false := by
  intro l
  induction l with
  | nil => rfl
  | cons x xs ih => simp [lexLt, ih]

theorem lexLt_asymm :
    ∀ a b : List Nat, lexLt a b = true → lexLt b a = false := by
  intro a
  induction a with
  | nil =>
    intro b h
    cases b with
    | nil => simp [lexLt] at h
    | cons y ys => simp [lexLt]
  | cons x xs ih =>
    intro b h
    cases b with
    | nil => simp [lexLt] at h
    | cons y ys =>
      simp only [lexLt] at h ⊢
      rcases Nat.lt_trichotomy x y with hxy | hxy | hxy
      · simp [hxy, Nat.lt_asymm hxy, Nat.ne_of_lt hxy]
      · subst hxy
        simp only [Nat.lt_irrefl, if_false] at h ⊢
        exact ih ys h
      · simp [hxy, Nat.lt_asymm hxy] at h

theorem lexLt_trans :
    ∀ a b c : List Nat, lexLt a b = true → lexLt b c = true → lexLt a c = true := by
  intro a
  induction a with
  | nil =>
    intro b c hab hbc
    cases b with
    | nil => exact hbc
    | cons y ys =>
      cases c with
      | nil => simp [lexLt] at hbc
      | cons z zs => simp [lexLt]
  | cons x xs ih =>
    intro b c hab hbc
    cases b with
    | nil => simp [lexLt] at hab
    | cons y ys =>
      cases c with
      | nil => simp [lexLt] at hbc
      | cons z zs =>
        simp only [lexLt] at hab hbc ⊢
        rcases Nat.lt_trichotomy x y with hxy | hxy | hxy
        · rcases Nat.lt_trichotomy y z with hyz | hyz | hyz
          · have : x < z := Nat.lt_trans hxy hyz
            simp [this]
          · subst hyz
            simp [hxy]
          · simp [hyz, Nat.lt_asymm hyz] at hbc
        · subst hxy
          simp only [Nat.lt_irrefl, if_false] at hab
          rcases Nat.lt_trichotomy x z with hyz | hyz | hyz
          · simp [hyz]
          · subst hyz
            simp only [Nat.lt_irrefl, if_false]
            simp only [Nat.lt_irrefl, if_false] at hbc
            exact ih ys zs hab hbc
          · simp [hyz, Nat.lt_asymm hyz] at hbc
        · simp [hxy, Nat.lt_asymm hxy] at hab

theorem lexLt_eq_of_not :
    ∀ a b : List Nat, lexLt a b = false → lexLt b a = false → a = b := by
  intro a
  induction a with
  | nil =>
    intro b hab hba
    cases b with
    | nil => rfl
    | cons y ys => simp [lexLt] at hab
  | cons x xs ih =>
    intro b hab hba
    cases b with
    | nil => simp [lexLt] at hba
    | cons y ys =>
      simp only [lexLt] at hab hba
      rcases Nat.lt_trichotomy x y with hxy | hxy | hxy
      · simp [hxy] at hab
      · subst hxy
        simp only [Nat.lt_irrefl, if_false] at hab hba
        rw [ih ys hab hba]
      · simp [hxy, Nat.lt_asymm hxy] at hba

/-! ## `caseSensitive` is a strict total order on strings -/

theorem caseSensitive_irrefl (a : Str) : caseSensitive a a = false := by
  rw [caseSensitive_eq_lexLt]
  exact lexLt_irrefl _

theorem caseSensitive_asymm {a b : Str} (h : caseSensitive a b = true) :
    caseSensitive b a = false := by
  rw [caseSensitive_eq_lexLt] at h ⊢
  exact lexLt_asymm _ _ h

theorem caseSensitive_trans {a b c : Str} (hab : caseSensitive a b = true)
    (hbc : caseSensitive b c = true) : caseSensitive a c = true := by
  rw [caseSensitive_eq_lexLt] at hab hbc ⊢
  exact lexLt_trans _ _ _ hab hbc

theorem caseSensitive_eq_of_incomp {a b : Str} (hab : caseSensitive a b = false)
    (hba : caseSensitive b a = false) : a = b := by
  rw [caseSensitive_eq_lexLt] at hab hba
  have h := lexLt_eq_of_not _ _ hab hba
  exact List.map_injective_iff.mpr (fun x y hxy => keyChar_inj hxy) h

/-! ## Insertion sort: permutation, sortedness, idempotence -/

theorem mem_insertBy (lt : α → α → Bool) (x : α) :
    ∀ l : List α, ∀ w, w ∈ insertBy lt x l ↔ w = x ∨ w ∈ l := by
  intro l
  induction l with
  | nil => simp [insertBy]
  | cons y ys ih =>
    intro w
    by_cases h : lt x y = true
    · simp [insertBy, h]
    · simp only [Bool.not_eq_true] at h
      simp [insertBy, h, ih]
      tauto

theorem perm_insertBy (lt : α → α → Bool) (x : α) :
    ∀ l : List α, (insertBy lt x l).Perm (x :: l) := by
  intro l
  induction l with
  | nil => simp [insertBy]
  | cons y ys ih =>
    by_cases h : lt x y = true
    · simp [insertBy, h]
    · simp only [Bool.not_eq_true] at h
      simp only [insertBy, h, Bool.false_eq_true, if_false]
      exact (ih.cons y).trans (List.Perm.swap x y ys)

theorem perm_isortBy (lt : α → α → Bool) :
    ∀ l : List α, (isortBy lt l).Perm l := by
  intro l
  induction l with
  | nil => simp [isortBy]
  | cons x xs ih =>
    exact (perm_insertBy lt x (isortBy lt xs)).trans (ih.cons x)

theorem sortedCS_insertBy {x : Str} :
    ∀ {l : List Str}, SortedCS l → SortedCS (insertBy caseSensitive x l) := by
  intro l
  induction l with
  | nil =>
    intro _
    simp [insertBy, SortedCS]
  | cons y ys ih =>
    intro hs
    rw [SortedCS, List.pairwise_cons] at hs
    obtain ⟨hy, hys⟩ := hs
    by_cases h : caseSensitive x y = true
    · simp only [insertBy, h, if_true]
      rw [SortedCS, List.pairwise_cons]
      constructor
      · intro z hz
        rcases List.mem_cons.mp hz with hz | hz
        · subst hz
          exact caseSensitive_asymm h
        · by_contra hc
          have hzx : caseSensitive z x = true := by
            cases hcs : caseSensitive z x with
            | false => exact absurd hcs hc
            | true => rfl
          have := caseSensitive_trans hzx h
          rw [hy z hz] at this
          exact Bool.false_ne_true this
      · exact List.pairwise_cons.mpr ⟨hy, hys⟩
    · simp only [Bool.not_eq_true] at h
      simp only [insertBy, h, Bool.false_eq_true, if_false]
      rw [SortedCS, List.pairwise_cons]
      constructor
      · intro z hz
        rcases (mem_insertBy caseSensitive x ys z).mp hz with hz | hz
        · subst hz
          exact h
        · exact hy z hz
      · exact ih hys

theorem sortedCS_alphabetize : ∀ l : List Str, SortedCS (alphabetize l) := by
  intro l
  induction l with
  | nil => simp [alphabetize, isortBy, SortedCS]
  | cons x xs ih =>
    exact sortedCS_insertBy ih

theorem insertBy_eq_cons {x : Str} :
    ∀ {l : List Str}, (∀ w ∈ l, caseSensitive w x = false) →
      insertBy caseSensitive x l = x :: l := by
  intro l
  induction l with
  | nil =>
    intro _
    rfl
  | cons y ys ih =>
    intro hw
    by_cases h : caseSensitive x y = true
    · simp [insertBy, h]
    · simp only [Bool.not_eq_true] at h
      have hyx : caseSensitive y x = false := hw y (List.mem_cons_self y ys)
      have hxy : x = y := caseSensitive_eq_of_incomp h hyx
      subst hxy
      simp only [insertBy, h, Bool.false_eq_true, if_false]
      rw [ih (fun w hwmem => hw w (List.mem_cons_of_mem x hwmem))]

theorem alphabetize_sorted_id : ∀ {l : List Str}, SortedCS l → alphabetize l = l := by
  intro l
  induction l with
  | nil =>
    intro _
    rfl
  | cons x xs ih =>
    intro hs
    rw [SortedCS, List.pairwise_cons] at hs
    obtain ⟨hx, hxs⟩ := hs
    show insertBy caseSensitive x (isortBy caseSensitive xs) = x :: xs
    have hxs2 : isortBy caseSensitive xs = xs := ih hxs
    rw [hxs2]
    exact insertBy_eq_cons hx

theorem alphabetize_idem (l : List Str) :
    alphabetize (alphabetize l) = alphabetize l :=
  alphabetize_sorted_id (sortedCS_alphabetize l)

/-- Justification of the insertion-sort model of `std::sort`: any sorted
permutation of the input (which is all `std::sort` guarantees) equals
`alphabetize` of the input, because `caseSensitive` is a strict total order. -/
theorem alphabetize_eq_of_perm_of_sorted {l l2 : List Str}
    (hp : l.Perm l2) (hs : SortedCS l2) : l2 = alphabetize l := by
  haveI : IsAntisymm Str (fun a b => caseSensitive b a = false) :=
    ⟨fun a b hab hba => caseSensitive_eq_of_incomp hba hab⟩
  have h1 : l2.Perm (alphabetize l) :=
    (hp.symm.trans (perm_isortBy caseSensitive l).symm)
  exact List.eq_of_perm_of_sorted h1 hs (sortedCS_alphabetize l)

/-! ## Rotations -/

theorem rotl_length : ∀ v : List α, (rotl v).length = v.length := by
  intro v
  cases v <;> simp [rotl]

theorem rotln_length : ∀ (i : Nat) (v : List α), (rotln i v).length = v.length := by
  intro i
  induction i with
  | zero =>
    intro v
    rfl
  | succ i ih =>
    intro v
    rw [rotln, ih, rotl_length]

theorem rotln_eq_drop_append_take :
    ∀ (i : Nat) (v : List α), i ≤ v.length → rotln i v = v.drop i ++ v.take i := by
  intro i
  induction i with
  | zero =>
    intro v _
    simp [rotln]
  | succ i ih =>
    intro v hi
    cases v with
    | nil => simp at hi
    | cons x xs =>
      have hix : i ≤ xs.length := by
        simpa using hi
      rw [rotln]
      have hr : rotl (x :: xs) = xs ++ [x] := rfl
      rw [hr, ih (xs ++ [x]) (by simp; omega)]
      rw [List.drop_append_of_le_length hix, List.take_append_of_le_length hix]
      simp

theorem headD_drop : ∀ (v : List α) (i : Nat) (d : α), i < v.length →
    (v.drop i).headD d = v.getD i d := by
  intro v
  induction v with
  | nil =>
    intro i d hi
    simp at hi
  | cons x xs ih =>
    intro i d hi
    cases i with
    | zero => rfl
    | succ i =>
      rw [List.drop_succ_cons, List.getD_cons_succ]
      exact ih i d (by simpa using hi)

theorem rotln_headD {v : List α} {i : Nat} (d : α) (hi : i < v.length) :
    (rotln i v).headD d = v.getD i d := by
  rw [rotln_eq_drop_append_take i v (Nat.le_of_lt hi)]
  have hne : v.drop i ≠ [] := by
    intro hcon
    have := List.drop_eq_nil_iff.mp hcon
    omega
  obtain ⟨y, ys, hy⟩ := List.exists_cons_of_ne_nil hne
  rw [← headD_drop v i d hi, hy]
  rfl

/-! ## Characterization of the circular-shift stage -/

theorem circShiftGo_eq (noise : List Str) :
    ∀ (k : Nat) (v : List Str),
      circShiftGo noise k v = (List.range k).filterMap (fun i =>
        if isNoiseWord ((rotln i v).headD []) noise = true then none
        else some (joinWords (rotln i v))) := by
  intro k
  induction k with
  | zero =>
    intro v
    rfl
  | succ k ih =>
    intro v
    rw [circShiftGo, List.range_succ_eq_map, List.filterMap_cons,
      List.filterMap_map]
    have hcomp : ((fun i =>
        if isNoiseWord ((rotln i v).headD []) noise = true then none
        else some (joinWords (rotln i v))) ∘ Nat.succ) = (fun i =>
        if isNoiseWord ((rotln i (rotl v)).headD []) noise = true then none
        else some (joinWords (rotln i (rotl v)))) := by
      funext i
      rfl
    rw [hcomp, ← ih]
    cases hb : isNoiseWord ((rotln 0 v).headD []) noise with
    | false =>
      have hb2 : isNoiseWord (v.headD []) noise = false := hb
      rw [List.headD_eq_head?_getD] at hb2
      simp [hb, hb2, rotln]
    | true =>
      have hb2 : isNoiseWord (v.headD []) noise = true := hb
      rw [List.headD_eq_head?_getD] at hb2
      simp [hb, hb2, rotln]

theorem circularShiftLine_eq (noise : List Str) (line : List Str) :
    circularShiftLine noise line = (List.range line.length).filterMap (fun i =>
      if isNoiseWord (line.getD i []) noise = true then none
      else some (joinWords (rotln i line))) := by
  rw [circularShiftLine, circShiftGo_eq]
  apply List.filterMap_congr
  intro i hi
  rw [rotln_headD [] (List.mem_range.mp hi)]

/-! ## Counting emitted rotations -/

theorem circShiftGo_length (noise : List Str) :
    ∀ (k : Nat) (v : List Str),
      (circShiftGo noise k v).length +
        ((List.range k).filter (fun i =>
          isNoiseWord ((rotln i v).headD []) noise)).length = k := by
  intro k
  induction k with
  | zero =>
    intro v
    rfl
  | succ k ih =>
    intro v
    rw [circShiftGo, List.range_succ_eq_map, List.filter_cons, List.filter_map]
    have hcomp : ((fun i => isNoiseWord ((rotln i v).headD []) noise) ∘ Nat.succ) =
        (fun i => isNoiseWord ((rotln i (rotl v)).headD []) noise) := by
      funext i
      rfl
    rw [hcomp]
    have := ih (rotl v)
    cases hb : isNoiseWord ((rotln 0 v).headD []) noise with
    | false =>
      have hb2 : isNoiseWord (v.headD []) noise = false := hb
      simp only [hb, Bool.false_eq_true, if_false, List.length_append,
        List.length_map, hb2, List.length_cons]
      simp only [List.length_append, List.length_map] at this
      simp only [List.length_cons, List.length_nil]
      omega
    | true =>
      have hb2 : isNoiseWord (v.headD []) noise = true := hb
      simp only [hb, if_true, List.length_append, List.length_map, hb2,
        List.length_cons, List.length_nil]
      simp only [List.length_append, List.length_map] at this
      omega

theorem circularShiftLine_length (noise : List Str) (line : List Str) :
    (circularShiftLine noise line).length +
      ((List.range line.length).filter (fun i =>
        isNoiseWord (line.getD i []) noise)).length = line.length := by
  rw [circularShiftLine]
  have h := circShiftGo_length noise line.length line
  rw [List.filter_congr (fun i hi => by
    rw [rotln_headD [] (List.mem_range.mp hi)])] at h
  exact h

/-! ## Structure of emitted rotation strings -/

theorem joinWords_foldl_acc :
    ∀ (ws : List Str) (acc : Str),
      ws.foldl (fun acc w => acc ++ (w ++ [32])) acc =
        acc ++ (ws.map (fun w => w ++ [32])).flatten := by
  intro ws
  induction ws with
  | nil =>
    intro acc
    simp
  | cons w ws ih =>
    intro acc
    rw [List.foldl_cons, ih, List.map_cons, List.flatten_cons]
    simp

theorem joinWords_eq_flatMap (ws : List Str) :
    joinWords ws = (ws.map (fun w => w ++ [32])).flatten := by
  rw [joinWords, joinWords_foldl_acc]
  rfl

theorem joinWords_getLast :
    ∀ ws : List Str, ws ≠ [] → (joinWords ws).getLast? = some 32 := by
  intro ws
  induction ws with
  | nil =>
    intro h
    exact absurd rfl h
  | cons w ws ih =>
    intro _
    rw [joinWords_eq_flatMap, List.map_cons, List.flatten_cons]
    cases hws : ws with
    | nil =>
      simp [List.getLast?_concat]
    | cons w2 ws2 =>
      rw [List.getLast?_append]
      have h2 := ih (by simp [hws])
      rw [joinWords_eq_flatMap] at h2
      rw [hws] at h2
      rw [h2]
      rfl

/-! ## Positional description of the comparator -/

theorem islower_isupper_of_tolower_eq_ne {ca cb : Nat}
    (he : c_tolower ca = c_tolower cb) (hne : ca ≠ cb) :
    (c_islower ca && c_isupper cb) = c_islower ca := by
  unfold c_tolower at he
  unfold c_islower c_isupper
  split_ifs at he <;> simp_all
  all_goals omega

theorem caseSensitive_fold_ne :
    ∀ (i : Nat) (a b : Str), i < min a.length b.length →
      (∀ j, j < i → a.getD j 0 = b.getD j 0) →
      c_tolower (a.getD i 0) ≠ c_tolower (b.getD i 0) →
      caseSensitive a b = decide (c_tolower (a.getD i 0) < c_tolower (b.getD i 0)) := by
  intro i
  induction i with
  | zero =>
    intro a b hlen _ hne
    cases a with
    | nil => simp at hlen
    | cons ca as =>
      cases b with
      | nil => simp at hlen
      | cons cb bs =>
        rw [List.getD_cons_zero, List.getD_cons_zero] at hne
        rw [List.getD_cons_zero, List.getD_cons_zero]
        simp [caseSensitive, hne]
  | succ i ih =>
    intro a b hlen hpre hne
    cases a with
    | nil => simp at hlen
    | cons ca as =>
      cases b with
      | nil => simp at hlen
      | cons cb bs =>
        have hhd : ca = cb := by
          have := hpre 0 (Nat.succ_pos i)
          rwa [List.getD_cons_zero, List.getD_cons_zero] at this
        subst hhd
        rw [List.getD_cons_succ] at hne ⊢
        rw [List.getD_cons_succ]
        have hstep : caseSensitive (ca :: as) (ca :: bs) = caseSensitive as bs := by
          simp [caseSensitive]
        rw [hstep]
        apply ih as bs
        · simp at hlen
          simp
          omega
        · intro j hj
          have := hpre (j + 1) (by omega)
          rwa [List.getD_cons_succ, List.getD_cons_succ] at this
        · exact hne

theorem caseSensitive_fold_eq_ne :
    ∀ (i : Nat) (a b : Str), i < min a.length b.length →
      (∀ j, j < i → a.getD j 0 = b.getD j 0) →
      c_tolower (a.getD i 0) = c_tolower (b.getD i 0) →
      a.getD i 0 ≠ b.getD i 0 →
      caseSensitive a b = c_islower (a.getD i 0) := by
  intro i
  induction i with
  | zero =>
    intro a b hlen _ hfold hne
    cases a with
    | nil => simp at hlen
    | cons ca as =>
      cases b with
      | nil => simp at hlen
      | cons cb bs =>
        rw [List.getD_cons_zero, List.getD_cons_zero] at hfold
        rw [List.getD_cons_zero, List.getD_cons_zero] at hne
        rw [List.getD_cons_zero]
        have hca : caseSensitive (ca :: as) (cb :: bs) = (c_islower ca && c_isupper cb) := by
          simp [caseSensitive, hfold, hne]
        rw [hca]
        exact islower_isupper_of_tolower_eq_ne hfold hne
  | succ i ih =>
    intro a b hlen hpre hfold hne
    cases a with
    | nil => simp at hlen
    | cons ca as =>
      cases b with
      | nil => simp at hlen
      | cons cb bs =>
        have hhd : ca = cb := by
          have := hpre 0 (Nat.succ_pos i)
          rwa [List.getD_cons_zero, List.getD_cons_zero] at this
        subst hhd
        rw [List.getD_cons_succ] at hfold hne ⊢
        rw [List.getD_cons_succ] at hfold hne
        have hstep : caseSensitive (ca :: as) (ca :: bs) = caseSensitive as bs := by
          simp [caseSensitive]
        rw [hstep]
        apply ih as bs
        · simp at hlen
          simp
          omega
        · intro j hj
          have := hpre (j + 1) (by omega)
          rwa [List.getD_cons_succ, List.getD_cons_succ] at this
        · exact hfold
        · exact hne

theorem caseSensitive_all_eq :
    ∀ (a b : Str), (∀ j, j < min a.length b.length → a.getD j 0 = b.getD j 0) →
      caseSensitive a b = decide (a.length < b.length) := by
  intro a
  induction a with
  | nil =>
    intro b _
    cases b <;> simp [caseSensitive]
  | cons ca as ih =>
    intro b hpre
    cases b with
    | nil => simp [caseSensitive]
    | cons cb bs =>
      have hhd : ca = cb := by
        have := hpre 0 (by simp)
        rwa [List.getD_cons_zero, List.getD_cons_zero] at this
      subst hhd
      have hstep : caseSensitive (ca :: as) (ca :: bs) = caseSensitive as bs := by
        simp [caseSensitive]
      rw [hstep, ih bs]
      · simp
      · intro j hj
        have := hpre (j + 1) (by simp at hj ⊢; omega)
        rwa [List.getD_cons_succ, List.getD_cons_succ] at this

/-! ## Claim theorems -/

/-- C1: the ordering comparator compares position by position over the
shared prefix of length `min (len a) (len b)`: at the first position where
the case-folded characters differ, the string whose character has the
smaller folded value orders first; at a position where the folded forms
are equal but the original characters differ, the string with the
lowercase character orders before the one with the uppercase character;
and if all compared positions are equal, the shorter string orders before
the longer one. -/
theorem kwic_C1 (a b : Str) (i : Nat) :
    (i < min a.length b.length →
      (∀ j, j < i → a.getD j 0 = b.getD j 0) →
      c_tolower (a.getD i 0) ≠ c_tolower (b.getD i 0) →
      caseSensitive a b = decide (c_tolower (a.getD i 0) < c_tolower (b.getD i 0))) ∧
    (i < min a.length b.length →
      (∀ j, j < i → a.getD j 0 = b.getD j 0) →
      c_tolower (a.getD i 0) = c_tolower (b.getD i 0) →
      a.getD i 0 ≠ b.getD i 0 →
      caseSensitive a b = c_islower (a.getD i 0)) ∧
    ((∀ j, j < min a.length b.length → a.getD j 0 = b.getD j 0) →
      caseSensitive a b = decide (a.length < b.length)) :=
  ⟨fun hl hp hne => caseSensitive_fold_ne i a b hl hp hne,
   fun hl hp hf hne => caseSensitive_fold_eq_ne i a b hl hp hf hne,
   fun hp => caseSensitive_all_eq a b hp⟩

theorem kwic_C1_witness :
    caseSensitive [66] [97, 120] = decide (c_tolower (([66] : Str).getD 0 0) <
      c_tolower (([97, 120] : Str).getD 0 0)) ∧
    caseSensitive [97, 120] [65, 121] = c_islower (([97, 120] : Str).getD 0 0) ∧
    caseSensitive [97] [97, 120] = decide (([97] : Str).length < ([97, 120] : Str).length) := by
  refine ⟨?_, ?_, ?_⟩
  · exact (kwic_C1 [66] [97, 120] 0).1 (by decide)
      (fun j hj => absurd hj (Nat.not_lt_zero j)) (by decide)
  · exact (kwic_C1 [97, 120] [65, 121] 0).2.1 (by decide)
      (fun j hj => absurd hj (Nat.not_lt_zero j)) (by decide) (by decide)
  · exact (kwic_C1 [97] [97, 120] 0).2.2 (fun j hj => by
      simp at hj
      have hj0 : j = 0 := by omega
      subst hj0
      rfl)

/-- C2: for a tokenized line of length `n`, the rotation generator visits
offsets `0..n-1` in increasing order, tests for each offset `i` whether
the word of the original line at position `i` — which is the front word of the
rotated sequence — is a noise word, and emits the rotation (its words
joined by single spaces) exactly when that front word is not in the
noise-word set. -/
theorem kwic_C2 (noise : List Str) (line : List Str) :
    circularShiftLine noise line = (List.range line.length).filterMap (fun i =>
      if isNoiseWord (line.getD i []) noise = true then none
      else some (joinWords (rotln i line))) ∧
    (∀ i, i < line.length → (rotln i line).headD [] = line.getD i []) ∧
    (∀ ws : List Str, joinWords ws = (ws.map (fun w => w ++ [32])).flatten) :=
  ⟨circularShiftLine_eq noise line,
   fun _ hi => rotln_headD [] hi,
   joinWords_eq_flatMap⟩

theorem kwic_C2_witness :
    circularShiftLine [[116, 104, 101]] [[84, 104, 101], [99, 97, 116]] =
      (List.range ([[84, 104, 101], [99, 97, 116]] : List Str).length).filterMap (fun i =>
        if isNoiseWord (([[84, 104, 101], [99, 97, 116]] : List Str).getD i [])
            [[116, 104, 101]] = true then none
        else some (joinWords (rotln i ([[84, 104, 101], [99, 97, 116]] : List Str)))) ∧
    (rotln 1 ([[84, 104, 101], [99, 97, 116]] : List Str)).headD [] =
      ([[84, 104, 101], [99, 97, 116]] : List Str).getD 1 [] := by
  constructor
  · exact (kwic_C2 [[116, 104, 101]] [[84, 104, 101], [99, 97, 116]]).1
  · exact (kwic_C2 [[116, 104, 101]] [[84, 104, 101], [99, 97, 116]]).2.1 1 (by decide)

/-- C3: a line of length `n` with exactly `m` start positions holding a
noise word (positions counted once each, repeated words notwithstanding)
emits exactly `n - m` rotations; the empty line emits none. -/
theorem kwic_C3 (noise : List Str) (line : List Str) :
    (circularShiftLine noise line).length =
      line.length - ((List.range line.length).filter (fun i =>
        isNoiseWord (line.getD i []) noise)).length ∧
    circularShiftLine noise [] = [] := by
  constructor
  · have h := circularShiftLine_length noise line
    omega
  · rfl

/-- C4: the noise membership test accepts `w` exactly when the lowercase
form of `w` equals the lowercase form of some token of the noise-word
list (whose tokens the input stage stores lowercased); membership is
case-insensitive exact equality, with no partial or prefix matching. -/
theorem kwic_C4 (w : Str) (tokens : List Str) :
    isNoiseWord w (tokens.map toLowerString) = true ↔
      ∃ t ∈ tokens, toLowerString w = toLowerString t := by
  rw [isNoiseWord, decide_eq_true_iff, List.mem_map]
  constructor
  · rintro ⟨t, ht, he⟩
    exact ⟨t, ht, he.symm⟩
  · rintro ⟨t, ht, he⟩
    exact ⟨t, ht, he.symm⟩

/-- C5 counterexample: the ordering stage does mutate its input.  With the
generated rotations `["b ", "a "]` (not already in sorted order), the
vector held by the repository of the rotation stage after
`AlphabetizerFilter::process` — the first component of the model, sorted
in place through the aliased pointer installed by
`SortedShiftRepo::copy` — differs from the input sequence. -/
theorem kwic_C5_counterexample :
    (alphabetizerProcess [[98, 32], [97, 32]]).fst ≠ [[98, 32], [97, 32]] := by
  decide

/-- C5 amended: `SortedShiftRepo::copy` assigns the `shared_ptr`, so the
ordering stage aliases the storage of the rotation stage and `std::sort` sorts
that shared vector in place; after `order(rotations)` both repositories
hold the sorted sequence, and the stored output of the rotation stage is
unchanged exactly when it was already sorted under the comparator. -/
theorem kwic_C5_amended (shifts : List Str) :
    (alphabetizerProcess shifts).fst = alphabetize shifts ∧
    (alphabetizerProcess shifts).snd = alphabetize shifts ∧
    ((alphabetizerProcess shifts).fst = shifts ↔ SortedCS shifts) := by
  refine ⟨rfl, rfl, ?_⟩
  constructor
  · intro h
    have h2 : alphabetize shifts = shifts := h
    rw [← h2]
    exact sortedCS_alphabetize shifts
  · intro h
    exact alphabetize_sorted_id h

/-- C6: the comparison rule is a strict weak ordering on strings —
irreflexive, asymmetric, transitive, and with transitive incomparability
(indeed incomparable strings are equal, so the order is strictly total
and sorting is total for any well-formed string input). -/
theorem kwic_C6 :
    (∀ a : Str, caseSensitive a a = false) ∧
    (∀ a b : Str, caseSensitive a b = true → caseSensitive b a = false) ∧
    (∀ a b c : Str, caseSensitive a b = true → caseSensitive b c = true →
      caseSensitive a c = true) ∧
    (∀ a b c : Str,
      caseSensitive a b = false ∧ caseSensitive b a = false →
      caseSensitive b c = false ∧ caseSensitive c b = false →
      caseSensitive a c = false ∧ caseSensitive c a = false) := by
  refine ⟨caseSensitive_irrefl, fun a b h => caseSensitive_asymm h,
    fun a b c h1 h2 => caseSensitive_trans h1 h2, ?_⟩
  intro a b c h1 h2
  have hab : a = b := caseSensitive_eq_of_incomp h1.1 h1.2
  have hbc : b = c := caseSensitive_eq_of_incomp h2.1 h2.2
  rw [hab, hbc]
  exact ⟨caseSensitive_irrefl c, caseSensitive_irrefl c⟩

theorem kwic_C6_witness :
    caseSensitive [97] [97] = false ∧
    caseSensitive [98] [97] = false ∧
    caseSensitive [97] [99] = true ∧
    (caseSensitive [97] [97] = false ∧ caseSensitive [97] [97] = false) := by
  refine ⟨kwic_C6.1 [97], ?_, ?_, ?_⟩
  · exact kwic_C6.2.1 [97] [98] (by decide)
  · exact kwic_C6.2.2.1 [97] [98] [99] (by decide) (by decide)
  · exact kwic_C6.2.2.2 [97] [97] [97] (by decide) (by decide)

/-- C7: ordering is idempotent — sorting a sequence that is already
sorted under the comparator returns that sequence unchanged, so applying
the ordering twice equals applying it once. -/
theorem kwic_C7 (l : List Str) :
    alphabetize (alphabetize l) = alphabetize l ∧
    (SortedCS l → alphabetize l = l) :=
  ⟨alphabetize_idem l, fun h => alphabetize_sorted_id h⟩

theorem kwic_C7_witness :
    alphabetize (alphabetize [[98], [97]]) = alphabetize [[98], [97]] ∧
    alphabetize [[97], [98]] = [[97], [98]] := by
  constructor
  · exact (kwic_C7 [[98], [97]]).1
  · exact (kwic_C7 [[97], [98]]).2 (by
      show List.Pairwise (fun a b => caseSensitive b a = false) [[97], [98]]
      decide)

/-- C8: whenever the positional argument count is not exactly two
(`argc ≠ 3`), the program writes a usage error to the error stream and
terminates with a non-zero status before any processing begins — the
outcome is independent of the file environment and nothing is written to
standard output. -/
theorem kwic_C8 (argc : Nat) (env env2 : RunEnv) (h : argc ≠ 3) :
    (runModel argc env).exitCode ≠ 0 ∧
    (runModel argc env).stderrMsgs ≠ [] ∧
    (runModel argc env).stderrMsgs.all ErrMsg.isUsage = true ∧
    (runModel argc env).stdoutLines = [] ∧
    runModel argc env = runModel argc env2 := by
  rcases Nat.lt_or_ge argc 3 with hlt | hge
  · simp [runModel, hlt, ErrMsg.isUsage]
  · have hgt : 3 < argc := by omega
    have hnlt : ¬ argc < 3 := by omega
    simp [runModel, hnlt, hgt, ErrMsg.isUsage]

theorem kwic_C8_witness :
    (runModel 5 ⟨true, true, [], []⟩).exitCode ≠ 0 ∧
    (runModel 5 ⟨true, true, [], []⟩).stderrMsgs ≠ [] ∧
    (runModel 5 ⟨true, true, [], []⟩).stderrMsgs.all ErrMsg.isUsage = true ∧
    (runModel 5 ⟨true, true, [], []⟩).stdoutLines = [] ∧
    runModel 5 ⟨true, true, [], []⟩ = runModel 5 ⟨false, true, [[97]], [[98]]⟩ :=
  kwic_C8 5 ⟨true, true, [], []⟩ ⟨false, true, [[97]], [[98]]⟩ (by decide)

/-- C9: when the noise-word list or the input document cannot be opened,
the program (run with the correct argument count) reports the failure to
the error stream and terminates with a non-zero status, and nothing is
written to standard output. -/
theorem kwic_C9 (env : RunEnv)
    (h : env.noiseFileOk = false ∨ env.inputFileOk = false) :
    (runModel 3 env).exitCode ≠ 0 ∧
    (runModel 3 env).stderrMsgs ≠ [] ∧
    (runModel 3 env).stdoutLines = [] := by
  obtain ⟨nok, iok, nl, il⟩ := env
  cases nok with
  | false => simp [runModel]
  | true =>
    cases iok with
    | false => simp [runModel]
    | true => simp at h

theorem kwic_C9_witness :
    (runModel 3 ⟨false, true, [], [[104, 105]]⟩).exitCode ≠ 0 ∧
    (runModel 3 ⟨false, true, [], [[104, 105]]⟩).stderrMsgs ≠ [] ∧
    (runModel 3 ⟨false, true, [], [[104, 105]]⟩).stdoutLines = [] :=
  kwic_C9 ⟨false, true, [], [[104, 105]]⟩ (Or.inl rfl)

/-- C10: every rotation emitted for a line of at least one word is the
rotated words of the line, each followed by exactly one space (trailing space
included), and consequently every string in the ordered index ends with a
space character. -/
theorem kwic_C10 (noise : List Str) (lines2d : List (List Str)) (line : List Str) :
    (∀ r ∈ circularShiftLine noise line,
      ∃ i, i < line.length ∧ r = ((rotln i line).map (fun w => w ++ [32])).flatten) ∧
    (∀ r ∈ alphabetize (circularShiftProcess noise lines2d), r.getLast? = some 32) := by
  constructor
  · intro r hr
    rw [circularShiftLine_eq] at hr
    rw [List.mem_filterMap] at hr
    obtain ⟨i, hi, hf⟩ := hr
    refine ⟨i, List.mem_range.mp hi, ?_⟩
    split at hf
    · simp at hf
    · have hjr := Option.some.inj hf
      rw [← hjr, joinWords_eq_flatMap]
  · intro r hr
    have hperm : (alphabetize (circularShiftProcess noise lines2d)).Perm
        (circularShiftProcess noise lines2d) := perm_isortBy caseSensitive _
    rw [hperm.mem_iff] at hr
    rw [circularShiftProcess, List.mem_flatten] at hr
    obtain ⟨l, hl, hrl⟩ := hr
    rw [List.mem_map] at hl
    obtain ⟨line2, _, hline2⟩ := hl
    subst hline2
    rw [circularShiftLine_eq, List.mem_filterMap] at hrl
    obtain ⟨i, hi, hf⟩ := hrl
    split at hf
    · simp at hf
    · have hjr := Option.some.inj hf
      rw [← hjr]
      apply joinWords_getLast
      have hlen : (rotln i line2).length = line2.length := rotln_length i line2
      have hpos : 0 < line2.length := by
        have := List.mem_range.mp hi
        omega
      intro hcon
      rw [hcon] at hlen
      simp at hlen
      omega

theorem kwic_C10_witness :
    (∃ i, i < ([[97]] : List Str).length ∧
      ([97, 32] : Str) = ((rotln i ([[97]] : List Str)).map (fun w => w ++ [32])).flatten) ∧
    ([97, 32] : Str).getLast? = some 32 := by
  constructor
  · exact (kwic_C10 [] [[[97]]] [[97]]).1 [97, 32] (by decide)
  · exact (kwic_C10 [] [[[97]]] [[97]]).2 [97, 32] (by decide)
